import Mathlib

/-!
Verification of the SQL-subset translator of the api-db_as repository.

The translator lives in two JavaScript modules:
* backend/src/services/databaseService.js — parseAndExecuteSQL, applyWhereClause,
  applyOrderBy, applyGroupBy, applyLimit, executeDynamicQuery;
* backend/src/services/geminiService.js and src/services/geminiService.js — the
  two versions of the safety validator isSafeQuery;
* src/services/databaseService.js — executeQuery with the in-memory
  GROUP BY category branch.

The JavaScript string/regex operations are embedded as executable functions on
List Char, matching the semantics of the specific regular expressions the source
uses (leftmost match, greedy and lazy quantifiers as written).  Numeric literals
(always of the shape digits or digits.digits in the source regexes) are modelled
as exact rationals.  The Supabase query-builder client is modelled as a data
type of structured operator calls; the external store is a parameter mapping a
built query to either rows or an error message.
-/

/-- Escaped character constants, so that quote characters never appear as
character literals in this file. -/
def quoteChar : Char := Char.ofNat 39

/-- The double-quote character, used by the JSON serializer. -/
def dquoteChar : Char := Char.ofNat 34

/-- The backslash character, used by the JSON serializer. -/
def bslashChar : Char := Char.ofNat 92

/-- JavaScript regex \s (ASCII part): space, tab, newline, carriage return,
vertical tab, form feed. -/
def isWsChar (c : Char) : Bool :=
  c = ' ' || c = Char.ofNat 9 || c = Char.ofNat 10 || c = Char.ofNat 13 ||
  c = Char.ofNat 11 || c = Char.ofNat 12

/-- JavaScript regex \w: ASCII letters, digits and underscore. -/
def isWordChar (c : Char) : Bool :=
  c.isAlpha || c.isDigit || c = '_'

/-- Whitespace-collapsing step of sql.replace over the whitespace-run regex:
every maximal run of whitespace becomes a single space. -/
def collapseWs : List Char → List Char
  | [] => []
  | c :: rest =>
    let r := collapseWs rest
    if isWsChar c then
      match r with
      | [] => [' ']
      | d :: _ => if d = ' ' then r else ' ' :: r
    else c :: r

/-- JavaScript String.prototype.trim on the ASCII whitespace the embedding
models. -/
def trimChars (s : List Char) : List Char :=
  ((s.dropWhile isWsChar).reverse.dropWhile isWsChar).reverse

/-- The cleaned text of the backend validator: whitespace collapsed, then
trimmed. -/
def normWs (s : List Char) : List Char :=
  trimChars (collapseWs s)

/-- Uppercasing a character list, modelling String.prototype.toUpperCase on
ASCII. -/
def toUpperList (s : List Char) : List Char :=
  s.map Char.toUpper

/-- Does the list start with the given pattern (exact character equality)? -/
def startsWithList : List Char → List Char → Bool
  | _, [] => true
  | [], _ :: _ => false
  | c :: cs, d :: ds => c = d && startsWithList cs ds

/-- Naive substring containment, modelling String.prototype.includes. -/
def substrContains : List Char → List Char → Bool
  | [], pat => pat.isEmpty
  | s@(_ :: rest), pat => startsWithList s pat || substrContains rest pat

/-- Case-insensitive literal match: if the text starts with the pattern up to
ASCII case, return the remaining text. -/
def stripCI : List Char → List Char → Option (List Char)
  | [], s => some s
  | _ :: _, [] => none
  | k :: ks, c :: cs => if c.toUpper = k.toUpper then stripCI ks cs else none

/-- Scan for a word-boundary, case-insensitive occurrence of a keyword, the
semantics of testing the regex backslash-b keyword backslash-b with the i flag:
the keyword (all word characters) must occur preceded and followed by a
non-word character or the ends of the text.  The flag prev records whether the
previous character was a word character. -/
def containsWordAux (kw : List Char) : Bool → List Char → Bool
  | _, [] => false
  | prev, c :: rest =>
    (!prev &&
      (match stripCI kw (c :: rest) with
       | some r =>
         match r with
         | [] => true
         | d :: _ => !isWordChar d
       | none => false)) ||
    containsWordAux kw (isWordChar c) rest

/-- Word-boundary, case-insensitive keyword containment. -/
def containsWordCI (kw s : List Char) : Bool :=
  containsWordAux kw false s

/-- The nine keywords of the dangerousKeywords array shared by both validator
versions. -/
def dangerousKeywords : List (List Char) :=
  ["DELETE".data, "INSERT".data, "UPDATE".data, "DROP".data, "ALTER".data,
   "CREATE".data, "TRUNCATE".data, "EXEC".data, "EXECUTE".data]

/-- Core checks of the backend isSafeQuery (geminiService.js in backend/src),
run on the already-normalized text: must start with SELECT (case-folded), no
dangerous keyword as a whole word (word-boundary regex, case-insensitive), and
no word-boundary INTO or VALUES. -/
def isSafeQueryChecks (clean : List Char) : Bool :=
  let upper := toUpperList clean
  if !startsWithList upper "SELECT".data then false
  else if dangerousKeywords.any (fun kw => containsWordCI kw clean) then false
  else if containsWordCI "INTO".data clean || containsWordCI "VALUES".data clean then false
  else true

/-- Backend safety validator isSafeQuery: collapse whitespace, trim, then run
the checks. -/
def isSafeQuery (sql : String) : Bool :=
  isSafeQueryChecks (normWs sql.data)

/-- The src/src safety validator isSafeQuery (src/services/geminiService.js):
same normalization, but keyword matching is naive substring search on the
uppercased text, and the statement must mention the items table. -/
def srcIsSafeQuery (sql : String) : Bool :=
  let clean := normWs sql.data
  let upper := toUpperList clean
  if !startsWithList upper "SELECT".data then false
  else if dangerousKeywords.any (fun kw => substrContains upper kw) then false
  else if !(substrContains upper "FROM ITEMS".data || substrContains upper "JOIN ITEMS".data) then false
  else if substrContains upper "INTO".data || substrContains upper "VALUES".data then false
  else true

/-! ## Regex scanners of parseAndExecuteSQL and applyWhereClause -/

/-- Model of the regex construct backslash-s-plus with maximal munch: requires
at least one whitespace character and consumes the whole run (the following
pattern element never accepts whitespace, so greedy matching is exact). -/
def wsPlus : List Char → Option (List Char)
  | [] => none
  | c :: rest => if isWsChar c then some (rest.dropWhile isWsChar) else none

/-- Case-insensitive prefix test. -/
def startsCI (pat s : List Char) : Bool :=
  (stripCI pat s).isSome

/-- Digits of a decimal integer literal interpreted by parseInt/parseFloat. -/
def parseNatDigits (ds : List Char) : ℕ :=
  ds.foldl (fun a c => 10 * a + (c.toNat - 48)) 0

/-- Exact value of a numeric literal matched by the number regex (an integer
digit run with an optional fractional digit run): the mantissa is the value of
all the digits and the scale the number of fractional digits, so the number
denoted is mantissa divided by ten to the scale.  parseFloat is modelled
exactly by the literal itself rather than by a float. -/
structure DecNum where
  mantissa : ℕ
  scale : ℕ
deriving DecidableEq, Repr

/-- The rational number a decimal literal denotes. -/
def DecNum.toRat (d : DecNum) : ℚ :=
  (d.mantissa : ℚ) / (10 : ℚ) ^ d.scale

/-- The decimal literal with the given integer and fractional digit runs. -/
def decNumOfParts (intPart fracPart : List Char) : DecNum :=
  ⟨parseNatDigits (intPart ++ fracPart), fracPart.length⟩

/-- Match the number regex (digit run, optional dot and digit run) at the
start of the text, returning the exact value and the rest. -/
def takeNumber (s : List Char) : Option (DecNum × List Char) :=
  let d := s.takeWhile Char.isDigit
  let s1 := s.dropWhile Char.isDigit
  if d.isEmpty then none
  else
    match s1 with
    | c :: rest =>
      if c = '.' then
        let f := rest.takeWhile Char.isDigit
        let s2 := rest.dropWhile Char.isDigit
        if f.isEmpty then some (decNumOfParts d [], s1) else some (decNumOfParts d f, s2)
      else some (decNumOfParts d [], s1)
    | [] => some (decNumOfParts d [], [])

/-- Attempt, at the current position, a match of the comparison regex: a word
run, optional whitespace, the operator literal, optional whitespace, a number.
Returns the column, the value and the text after the match. -/
def tryCmpAt (opLit : List Char) (s : List Char) : Option (List Char × DecNum × List Char) :=
  let w := s.takeWhile isWordChar
  if w.isEmpty then none
  else
    let s2 := (s.dropWhile isWordChar).dropWhile isWsChar
    match stripCI opLit s2 with
    | none => none
    | some s3 =>
      match takeNumber (s3.dropWhile isWsChar) with
      | none => none
      | some (q, s5) => some (w, q, s5)

/-- Attempt, at the current position, a match of the string-equality regex:
word run, optional whitespace, equals sign, optional whitespace, a quoted
nonempty run of non-quote characters. -/
def tryEqStrAt (s : List Char) : Option (List Char × List Char × List Char) :=
  let w := s.takeWhile isWordChar
  if w.isEmpty then none
  else
    match (s.dropWhile isWordChar).dropWhile isWsChar with
    | c :: s2 =>
      if c = '=' then
        match s2.dropWhile isWsChar with
        | q1 :: s4 =>
          if q1 = quoteChar then
            let v := s4.takeWhile (fun ch => ch ≠ quoteChar)
            if v.isEmpty then none
            else
              match s4.dropWhile (fun ch => ch ≠ quoteChar) with
              | q2 :: s6 => if q2 = quoteChar then some (w, v, s6) else none
              | [] => none
          else none
        | [] => none
      else none
    | [] => none

/-- Attempt, at the current position, a match of the ILIKE regex: word run,
required whitespace, the keyword ILIKE, optional whitespace, a quoted
nonempty pattern. -/
def tryIlikeAt (s : List Char) : Option (List Char × List Char × List Char) :=
  let w := s.takeWhile isWordChar
  if w.isEmpty then none
  else
    match wsPlus (s.dropWhile isWordChar) with
    | none => none
    | some s2 =>
      match stripCI "ILIKE".data s2 with
      | none => none
      | some s3 =>
        match s3.dropWhile isWsChar with
        | q1 :: s4 =>
          if q1 = quoteChar then
            let v := s4.takeWhile (fun ch => ch ≠ quoteChar)
            if v.isEmpty then none
            else
              match s4.dropWhile (fun ch => ch ≠ quoteChar) with
              | q2 :: s6 => if q2 = quoteChar then some (w, v, s6) else none
              | [] => none
          else none
        | [] => none

/-- Attempt, at the current position, a match of the BETWEEN regex: word run,
whitespace, BETWEEN, whitespace, number, whitespace, AND, whitespace, number. -/
def tryBetweenAt (s : List Char) : Option (List Char × DecNum × DecNum) :=
  let w := s.takeWhile isWordChar
  if w.isEmpty then none
  else
    match wsPlus (s.dropWhile isWordChar) with
    | none => none
    | some s2 =>
      match stripCI "BETWEEN".data s2 with
      | none => none
      | some s3 =>
        match wsPlus s3 with
        | none => none
        | some s4 =>
          match takeNumber s4 with
          | none => none
          | some (lo, s5) =>
            match wsPlus s5 with
            | none => none
            | some s6 =>
              match stripCI "AND".data s6 with
              | none => none
              | some s7 =>
                match wsPlus s7 with
                | none => none
                | some s8 =>
                  match takeNumber s8 with
                  | none => none
                  | some (hi, _) => some (w, lo, hi)

/-- All matches of the comparison regex in matchAll order: leftmost match,
then continue scanning after the end of each match.  The recursion is driven
by a fuel argument equal to the length of the text, which always suffices
because every step consumes at least one character. -/
def scanCmpF (opLit : List Char) : ℕ → List Char → List (List Char × DecNum)
  | 0, _ => []
  | _ + 1, [] => []
  | fuel + 1, c :: rest =>
    match tryCmpAt opLit (c :: rest) with
    | some (col, q, after) => (col, q) :: scanCmpF opLit fuel after
    | none => scanCmpF opLit fuel rest

/-- matchAll for the comparison regex with the given operator literal. -/
def scanCmp (opLit : List Char) (s : List Char) : List (List Char × DecNum) :=
  scanCmpF opLit s.length s

/-- matchAll for the string-equality regex. -/
def scanEqStrF : ℕ → List Char → List (List Char × List Char)
  | 0, _ => []
  | _ + 1, [] => []
  | fuel + 1, c :: rest =>
    match tryEqStrAt (c :: rest) with
    | some (col, v, after) => (col, v) :: scanEqStrF fuel after
    | none => scanEqStrF fuel rest

/-- matchAll for the string-equality regex, fuel instantiated. -/
def scanEqStr (s : List Char) : List (List Char × List Char) :=
  scanEqStrF s.length s

/-- matchAll for the ILIKE regex. -/
def scanIlikeF : ℕ → List Char → List (List Char × List Char)
  | 0, _ => []
  | _ + 1, [] => []
  | fuel + 1, c :: rest =>
    match tryIlikeAt (c :: rest) with
    | some (col, v, after) => (col, v) :: scanIlikeF fuel after
    | none => scanIlikeF fuel rest

/-- matchAll for the ILIKE regex, fuel instantiated. -/
def scanIlike (s : List Char) : List (List Char × List Char) :=
  scanIlikeF s.length s

/-- First match of the BETWEEN regex (the source uses match, not matchAll). -/
def findBetween : List Char → Option (List Char × DecNum × DecNum)
  | [] => none
  | s@(_ :: rest) =>
    match tryBetweenAt s with
    | some r => some r
    | none => findBetween rest

/-- Attempt the FROM-table regex at this position: the literal FROM, required
whitespace, then a word run captured as the table name. -/
def tryFromAt (s : List Char) : Option (List Char) :=
  match stripCI "FROM".data s with
  | none => none
  | some s1 =>
    match wsPlus s1 with
    | none => none
    | some s2 =>
      let w := s2.takeWhile isWordChar
      if w.isEmpty then none else some w

/-- First match of the FROM-table regex anywhere in the text. -/
def findFromTable : List Char → Option (List Char)
  | [] => none
  | s@(_ :: rest) =>
    match tryFromAt s with
    | some w => some w
    | none => findFromTable rest

/-- Tail test of the projection regex: at least one whitespace character then
the literal FROM. -/
def wsFromTail (s : List Char) : Bool :=
  match wsPlus s with
  | some r => startsCI "FROM".data r
  | none => false

/-- Lazy capture: the shortest prefix of the text whose remainder satisfies
the tail test, the semantics of a lazy any-character group followed by the
tail pattern. -/
def lazyCapture (t : List Char → Bool) : List Char → Option (List Char)
  | [] => if t [] then some [] else none
  | c :: rest =>
    if t (c :: rest) then some []
    else (lazyCapture t rest).map (fun g => c :: g)

/-- Attempt the projection regex at this position: SELECT, required
whitespace (greedy, with backtracking), lazy capture, whitespace, FROM.
If the lazy capture fails with the whole whitespace run consumed, the run
is backtracked: with at least two whitespace characters the group can match
the empty string just before the last run character, provided FROM follows
the run immediately. -/
def trySelectAt (s : List Char) : Option (List Char) :=
  match stripCI "SELECT".data s with
  | none => none
  | some s1 =>
    let ws := s1.takeWhile isWsChar
    let r := s1.dropWhile isWsChar
    if ws.isEmpty then none
    else
      match lazyCapture wsFromTail r with
      | some g => some g
      | none => if ws.length ≥ 2 && startsCI "FROM".data r then some [] else none

/-- First match of the projection regex: the text between SELECT and FROM. -/
def findSelectCols : List Char → Option (List Char)
  | [] => none
  | s@(_ :: rest) =>
    match trySelectAt s with
    | some g => some g
    | none => findSelectCols rest

/-- Tail test of the WHERE regex: ORDER BY, GROUP BY, LIMIT or end of text. -/
def whereTail (s : List Char) : Bool :=
  startsCI "ORDER BY".data s || startsCI "GROUP BY".data s ||
  startsCI "LIMIT".data s || s.isEmpty

/-- Attempt the WHERE regex at this position: WHERE, required whitespace,
lazy capture up to the first clause keyword or the end. -/
def tryWhereAt (s : List Char) : Option (List Char) :=
  match stripCI "WHERE".data s with
  | none => none
  | some s1 =>
    match wsPlus s1 with
    | none => none
    | some r => lazyCapture whereTail r

/-- First match of the WHERE regex: the raw WHERE-clause text. -/
def findWhere : List Char → Option (List Char)
  | [] => none
  | s@(_ :: rest) =>
    match tryWhereAt s with
    | some g => some g
    | none => findWhere rest

/-- Tail test of the ORDER BY regex: LIMIT or end of text. -/
def orderTail (s : List Char) : Bool :=
  startsCI "LIMIT".data s || s.isEmpty

/-- Attempt the ORDER BY regex at this position. -/
def tryOrderAt (s : List Char) : Option (List Char) :=
  match stripCI "ORDER BY".data s with
  | none => none
  | some s1 =>
    match wsPlus s1 with
    | none => none
    | some r => lazyCapture orderTail r

/-- First match of the ORDER BY regex: the raw ordering text. -/
def findOrder : List Char → Option (List Char)
  | [] => none
  | s@(_ :: rest) =>
    match tryOrderAt s with
    | some g => some g
    | none => findOrder rest

/-- Attempt the LIMIT regex at this position: LIMIT, required whitespace,
a digit run interpreted by parseInt. -/
def tryLimitAt (s : List Char) : Option ℕ :=
  match stripCI "LIMIT".data s with
  | none => none
  | some s1 =>
    match wsPlus s1 with
    | none => none
    | some s2 =>
      let d := s2.takeWhile Char.isDigit
      if d.isEmpty then none else some (parseNatDigits d)

/-- First match of the LIMIT regex. -/
def findLimit : List Char → Option ℕ
  | [] => none
  | s@(_ :: rest) =>
    match tryLimitAt s with
    | some n => some n
    | none => findLimit rest

/-! ## Query-builder model -/

/-- A literal argument of a filter operator: a string from a quoted literal,
or an exact rational from a numeric literal (parseFloat of a digits or
digits.digits literal is exact). -/
inductive Lit
  | lstr (v : List Char)
  | lnum (q : DecNum)
deriving DecidableEq, Repr

/-- A structured operator call on the Supabase query builder: these are the
only operations of the store client the translator invokes. -/
inductive StoreOp
  | eqOp (col : List Char) (v : Lit)
  | ltOp (col : List Char) (q : DecNum)
  | gtOp (col : List Char) (q : DecNum)
  | gteOp (col : List Char) (q : DecNum)
  | lteOp (col : List Char) (q : DecNum)
  | ilikeOp (col : List Char) (pat : List Char)
  | orderOp (col : List Char) (ascending : Bool)
  | limitOp (n : ℕ)
deriving DecidableEq, Repr

/-- The state of a chained Supabase query: target table, the select argument,
the count option (some h models select with count exact and head h), and the
list of chained operator calls in call order. -/
structure SBQuery where
  table : List Char
  columns : List Char
  countHead : Option Bool
  ops : List StoreOp
deriving DecidableEq, Repr

/-- A JSON-style value of a returned row. -/
inductive Val
  | vstr (s : String)
  | vint (n : ℤ)
  | vbool (b : Bool)
  | vnull
deriving DecidableEq, Repr

/-- A returned row: fields in insertion order. -/
abbrev Row := List (String × Val)

/-- The executable outcome of parsing: an immediate result (the SELECT 1
special case), a COUNT query (groupBy records whether the GROUP BY return
shape is used), or a regular SELECT with its distinct flag. -/
inductive ExecPlan
  | immediate (rows : List Row) (count : ℕ)
  | counted (q : SBQuery) (groupBy : Bool)
  | regular (q : SBQuery) (distinct : Bool)
deriving DecidableEq, Repr

/-- The ordered operator calls produced from the WHERE-clause text, in the
order of the source: string equality, numeric equality, less-than,
greater-than, greater-or-equal, less-or-equal, BETWEEN (as a gte and an lte),
ILIKE. -/
def whereClauseOps (wc : List Char) : List StoreOp :=
  ((scanEqStr wc).map fun m => StoreOp.eqOp m.1 (Lit.lstr m.2)) ++
  ((scanCmp "=".data wc).map fun m => StoreOp.eqOp m.1 (Lit.lnum m.2)) ++
  ((scanCmp "<".data wc).map fun m => StoreOp.ltOp m.1 m.2) ++
  ((scanCmp ">".data wc).map fun m => StoreOp.gtOp m.1 m.2) ++
  ((scanCmp ">=".data wc).map fun m => StoreOp.gteOp m.1 m.2) ++
  ((scanCmp "<=".data wc).map fun m => StoreOp.lteOp m.1 m.2) ++
  (match findBetween wc with
   | some (col, lo, hi) => [StoreOp.gteOp col lo, StoreOp.lteOp col hi]
   | none => []) ++
  ((scanIlike wc).map fun m => StoreOp.ilikeOp m.1 m.2)

/-- applyWhereClause: extract the WHERE text from the statement and chain the
structured filter calls; the query is unchanged when there is no WHERE. -/
def applyWhereClause (q : SBQuery) (sql : List Char) : SBQuery :=
  match findWhere sql with
  | none => q
  | some cap => ⟨q.table, q.columns, q.countHead, q.ops ++ whereClauseOps (trimChars cap)⟩

/-- Tokens of a trimmed string split on whitespace runs, the behavior of
String.prototype.split on the whitespace regex for trimmed input (the empty
string yields one empty token). -/
def wsTokensF : ℕ → List Char → List (List Char)
  | 0, _ => []
  | _ + 1, [] => []
  | fuel + 1, c :: rest =>
    if isWsChar c then wsTokensF fuel rest
    else (c :: rest.takeWhile (fun d => !isWsChar d)) ::
      wsTokensF fuel (rest.dropWhile (fun d => !isWsChar d))

/-- Whitespace tokenization, fuel instantiated. -/
def wsTokens (s : List Char) : List (List Char) :=
  wsTokensF s.length s

/-- split on whitespace for a trimmed input. -/
def splitWsTrimmed (s : List Char) : List (List Char) :=
  if s.isEmpty then [[]] else wsTokens s

/-- applyOrderBy: take the ordering text, its first comma-separated term, the
first whitespace token as the column, the second token (if DESC, case-folded)
as descending, and chain one order call. -/
def applyOrderBy (q : SBQuery) (sql : List Char) : SBQuery :=
  match findOrder sql with
  | none => q
  | some cap =>
    let oc := trimChars cap
    let firstTerm := trimChars (oc.takeWhile (fun c => c ≠ ','))
    let parts := splitWsTrimmed firstTerm
    let col := parts.headD []
    let asc :=
      match parts.get? 1 with
      | some t => if toUpperList t = "DESC".data then false else true
      | none => true
    ⟨q.table, q.columns, q.countHead, q.ops ++ [StoreOp.orderOp col asc]⟩

/-- applyGroupBy of the source is a no-op: the builder cannot express
GROUP BY, so the query is returned unchanged. -/
def applyGroupBy (q : SBQuery) (_sql : List Char) : SBQuery := q

/-- applyLimit: chain one limit call when the LIMIT regex matches. -/
def applyLimit (q : SBQuery) (sql : List Char) : SBQuery :=
  match findLimit sql with
  | none => q
  | some n => ⟨q.table, q.columns, q.countHead, q.ops ++ [StoreOp.limitOp n]⟩

/-- Removal of trailing semicolons, the semicolon-run-at-end regex replace. -/
def stripTrailingSemis (s : List Char) : List Char :=
  (s.reverse.dropWhile (fun c => c = ';')).reverse

/-- split on commas, the behavior of String.prototype.split on a comma. -/
def splitOnComma : List Char → List (List Char)
  | [] => [[]]
  | c :: rest =>
    if c = ',' then [] :: splitOnComma rest
    else
      match splitOnComma rest with
      | g :: gs => (c :: g) :: gs
      | [] => [[c]]

/-- The column-list normalization of the regular SELECT path: split on
commas, trim each piece, join with commas. -/
def normalizeColumnList (s : List Char) : List Char :=
  List.intercalate [','] ((splitOnComma s).map trimChars)

/-- The pure query-building part of parseAndExecuteSQL: clean the statement,
locate the table, and build the executable plan exactly along the branch
structure of the source (COUNT path with its GROUP BY re-selection, regular
path with DISTINCT stripping and column normalization, the SELECT 1 special
case, the parse error otherwise). -/
def parseSQLPlan (sql : String) : Except String ExecPlan :=
  let cleanSQL := trimChars (stripTrailingSemis sql.data)
  let upperSQL := toUpperList cleanSQL
  match findFromTable cleanSQL with
  | none =>
    if upperSQL = "SELECT 1".data then
      Except.ok (ExecPlan.immediate [[("result", Val.vint 1)]] 1)
    else Except.error "Could not parse table name from query"
  | some tableName =>
    if substrContains upperSQL "COUNT(*)".data then
      let q1 := applyWhereClause ⟨tableName, "*".data, some false, []⟩ cleanSQL
      if substrContains upperSQL "GROUP BY".data then
        match findSelectCols cleanSQL with
        | some cap =>
          let columns := trimChars cap
          let q2 := applyGroupBy (applyWhereClause ⟨tableName, columns, none, []⟩ cleanSQL) cleanSQL
          Except.ok (ExecPlan.counted q2 true)
        | none => Except.ok (ExecPlan.counted q1 true)
      else Except.ok (ExecPlan.counted q1 false)
    else
      let colsD :=
        match findSelectCols cleanSQL with
        | none => ("*".data, false)
        | some cap =>
          let c0 := trimChars cap
          let dStrip :=
            if startsWithList (toUpperList c0) "DISTINCT ".data then (trimChars (c0.drop 9), true)
            else (c0, false)
          let c2 :=
            if dStrip.1 ≠ "*".data && !(dStrip.1.contains '(') then normalizeColumnList dStrip.1
            else dStrip.1
          (c2, dStrip.2)
      let q := applyLimit (applyOrderBy (applyWhereClause ⟨tableName, colsD.1, none, []⟩ cleanSQL) cleanSQL) cleanSQL
      Except.ok (ExecPlan.regular q colsD.2)

/-! ## Execution against the store, DISTINCT post-processing -/

/-- The left-brace character. -/
def lbraceChar : Char := Char.ofNat 123

/-- The right-brace character. -/
def rbraceChar : Char := Char.ofNat 125

/-- JSON string escaping of one character: quote and backslash are escaped
with a backslash, the rest is kept. -/
def escChar (c : Char) : List Char :=
  if c = dquoteChar ∨ c = bslashChar then [bslashChar, c] else [c]

/-- JSON string escaping. -/
def escString : List Char → List Char
  | [] => []
  | c :: rest => escChar c ++ escString rest

/-- A JSON string literal: escaped content between double quotes. -/
def quoteStr (s : List Char) : List Char :=
  dquoteChar :: (escString s ++ [dquoteChar])

/-- Little-endian decimal digits of a natural number (empty for zero); the
fuel equals the number itself, which always suffices. -/
def natDigitsF : ℕ → ℕ → List ℕ
  | 0, _ => []
  | _ + 1, 0 => []
  | fuel + 1, n + 1 => ((n + 1) % 10) :: natDigitsF fuel ((n + 1) / 10)

/-- Little-endian decimal digits, fuel instantiated. -/
def natDigitsLE (n : ℕ) : List ℕ :=
  natDigitsF n n

/-- The character of a decimal digit. -/
def digitChar : ℕ → Char
  | 0 => '0' | 1 => '1' | 2 => '2' | 3 => '3' | 4 => '4'
  | 5 => '5' | 6 => '6' | 7 => '7' | 8 => '8' | _ => '9'

/-- Decimal representation of a natural number. -/
def natRepr (n : ℕ) : List Char :=
  if n = 0 then ['0'] else ((natDigitsLE n).map digitChar).reverse

/-- Decimal representation of an integer, as JSON.stringify prints it. -/
def intRepr (n : ℤ) : List Char :=
  if n < 0 then '-' :: natRepr n.natAbs else natRepr n.toNat

/-- JSON serialization of a value. -/
def serVal : Val → List Char
  | Val.vstr s => quoteStr s.data
  | Val.vint n => intRepr n
  | Val.vbool true => "true".data
  | Val.vbool false => "false".data
  | Val.vnull => "null".data

/-- JSON serialization of one key-value pair. -/
def serPair (p : String × Val) : List Char :=
  quoteStr p.1.data ++ ':' :: serVal p.2

/-- JSON serialization of the fields of a row, closing brace included. -/
def serPairs : List (String × Val) → List Char
  | [] => [rbraceChar]
  | p :: ps =>
    serPair p ++ (match ps with
                  | [] => [rbraceChar]
                  | _ :: _ => ',' :: serPairs ps)

/-- JSON.stringify of a row. -/
def serializeRow (r : Row) : List Char :=
  lbraceChar :: serPairs r

/-- The DISTINCT deduplication filter of parseAndExecuteSQL: a row is kept
when its serialization has not been seen before, and its serialization is
added to the seen set. -/
def dedupRowsAux (seen : List (List Char)) : List Row → List Row
  | [] => []
  | r :: rs =>
    let v := serializeRow r
    if v ∈ seen then dedupRowsAux seen rs
    else r :: dedupRowsAux (v :: seen) rs

/-- The DISTINCT deduplication of parseAndExecuteSQL. -/
def dedupRows (rows : List Row) : List Row :=
  dedupRowsAux [] rows

/-- The DISTINCT post-processing step: deduplicate only when the distinct
flag is set and some rows came back. -/
def postDistinct (isDistinct : Bool) (rows : List Row) : List Row :=
  if isDistinct && !rows.isEmpty then dedupRows rows else rows

/-- The count value placed in the total field of a COUNT result. -/
def countVal : Option ℕ → Val
  | some n => Val.vint n
  | none => Val.vnull

/-- The external store client: maps a built query to rows and an optional
count, or an error message. -/
abbrev Store := SBQuery → Except String (List Row × Option ℕ)

/-- Execution of a built plan against the store, with the return shaping of
the source: the SELECT 1 immediate result, the GROUP BY count shape (rows as
fetched), the plain count shape (a single total row built from the count
alone), and the regular shape with DISTINCT post-processing. -/
def runPlan (store : Store) : ExecPlan → Except String (List Row × ℕ)
  | ExecPlan.immediate rows cnt => Except.ok (rows, cnt)
  | ExecPlan.counted q groupBy =>
    match store q with
    | Except.error e => Except.error e
    | Except.ok (rows, cnt) =>
      if groupBy then Except.ok (rows, rows.length)
      else Except.ok ([[("total", countVal cnt)]], 1)
  | ExecPlan.regular q dist =>
    match store q with
    | Except.error e => Except.error e
    | Except.ok (rows, _) =>
      let fin := postDistinct dist rows
      Except.ok (fin, fin.length)

/-- parseAndExecuteSQL: build the plan, then execute it. -/
def parseAndExecuteSQL (store : Store) (sql : String) : Except String (List Row × ℕ) :=
  (parseSQLPlan sql).bind (runPlan store)

/-- The structured result returned to the caller. -/
structure QueryResult where
  success : Bool
  data : List Row
  count : ℕ
  error : Option String
deriving DecidableEq, Repr

/-- executeDynamicQuery: validate, require a SELECT, then parse and execute;
every thrown error is caught and turned into a failure result carrying the
message and no rows. -/
def executeDynamicQuery (store : Store) (sql : String) : QueryResult :=
  if !isSafeQuery sql then ⟨false, [], 0, some "Query contains unsafe operations"⟩
  else if !startsWithList (trimChars (toUpperList sql.data)) "SELECT".data then
    ⟨false, [], 0, some "Only SELECT queries are allowed"⟩
  else
    match parseAndExecuteSQL store sql with
    | Except.ok (data, cnt) =>
      ⟨true, data, if data.length ≠ 0 then data.length else cnt, none⟩
    | Except.error e => ⟨false, [], 0, some e⟩

/-! ## The src/src executeQuery GROUP BY category branch -/

/-- One step of the category-count accumulation: increment the entry of the
category if present (in place), otherwise append a new entry with count one —
the object-update semantics of the source's forEach. -/
def bumpCount : List (String × ℕ) → String → List (String × ℕ)
  | [], c => [(c, 1)]
  | (k, n) :: t, c =>
    if k = c then (k, n + 1) :: t else (k, n) :: bumpCount t c

/-- The category-count association built over the fetched category values, in
key insertion order. -/
def categoryCounts (rows : List String) : List (String × ℕ) :=
  rows.foldl bumpCount []

/-- Comparison used by the sort of the grouping branch: descending count. -/
def cntGE (a b : String × ℕ) : Prop := b.2 ≤ a.2

instance : DecidableRel cntGE := fun a b => inferInstanceAs (Decidable (b.2 ≤ a.2))

instance : IsTotal (String × ℕ) cntGE := ⟨fun a b => le_total b.2 a.2⟩

instance : IsTrans (String × ℕ) cntGE := ⟨fun _ _ _ h1 h2 => le_trans h2 h1⟩

/-- The grouped output of the src/src executeQuery GROUP BY category branch:
category-count pairs sorted by count descending (a stable sort, as the
ECMAScript sort is). -/
def srcGroupByCategory (rows : List String) : List (String × ℕ) :=
  List.insertionSort cntGE (categoryCounts rows)

/-! ## The validator as a total function of an arbitrary JavaScript value -/

/-- An arbitrary JavaScript value passed to the validator. -/
inductive JSVal
  | jstr (s : String)
  | jnum (n : ℤ)
  | jbool (b : Bool)
  | jnull
  | jundefined
deriving DecidableEq, Repr

/-- Is the value a string? -/
def JSVal.isString : JSVal → Bool
  | JSVal.jstr _ => true
  | _ => false

/-- The body of isSafeQuery before the catch: the first operation is a string
method call on the argument, which throws a TypeError on every non-string
value; on strings the remaining checks are pure and cannot throw. -/
def isSafeQueryBody : JSVal → Except String Bool
  | JSVal.jstr s => Except.ok (isSafeQueryChecks (normWs s.data))
  | _ => Except.error "TypeError: sql.replace is not a function"

/-- The whole backend isSafeQuery on an arbitrary value: the try/catch wraps
the body and returns false on any thrown error. -/
def isSafeQueryJS (v : JSVal) : Bool :=
  match isSafeQueryBody v with
  | Except.ok b => b
  | Except.error _ => false

instance {ε α : Type} [DecidableEq ε] [DecidableEq α] : DecidableEq (Except ε α) := fun x y =>
  match x, y with
  | Except.ok a, Except.ok b =>
    if h : a = b then isTrue (by rw [h]) else isFalse (by intro hc; cases hc; exact h rfl)
  | Except.error e, Except.error f =>
    if h : e = f then isTrue (by rw [h]) else isFalse (by intro hc; cases hc; exact h rfl)
  | Except.ok _, Except.error _ => isFalse (by intro hc; cases hc)
  | Except.error _, Except.ok _ => isFalse (by intro hc; cases hc)

/-! ## Specification-side definitions used by the claims -/

/-- Does a plan avoid fetching row bodies?  The immediate result makes no
store call; a count query avoids row bodies exactly when the select was
issued in head mode; a regular select fetches rows. -/
def planNoRowFetch : ExecPlan → Bool
  | ExecPlan.immediate _ _ => true
  | ExecPlan.counted q _ => q.countHead = some true
  | ExecPlan.regular _ _ => false

/-- Does the cleaned statement ask for an aggregate count? -/
def isCountStyle (sql : String) : Bool :=
  substrContains (toUpperList (trimChars (stripTrailingSemis sql.data))) "COUNT(*)".data

/-- A nonempty token of word characters, the shape of every column captured
by a word-run regex group. -/
def isWordToken (w : List Char) : Bool :=
  !w.isEmpty && w.all isWordChar

/-- A nonempty token with no quote character, the shape of every string
literal captured between quotes. -/
def noQuoteToken (v : List Char) : Bool :=
  !v.isEmpty && v.all (fun c => c ≠ quoteChar)

/-- The ordering column: a token without whitespace or commas (it is a
whitespace token of the first comma-separated ordering term). -/
def orderColToken (c : List Char) : Bool :=
  c.all (fun ch => !isWsChar ch && ch ≠ ',')

/-- Is a store call structured in the sense of the safety property: a typed
operator whose column is a bare word token, whose numeric argument is a
parsed literal, and whose string argument is a quote-free literal? -/
def structuredOp : StoreOp → Bool
  | StoreOp.eqOp col (Lit.lstr v) => isWordToken col && noQuoteToken v
  | StoreOp.eqOp col (Lit.lnum _) => isWordToken col
  | StoreOp.ltOp col _ => isWordToken col
  | StoreOp.gtOp col _ => isWordToken col
  | StoreOp.gteOp col _ => isWordToken col
  | StoreOp.lteOp col _ => isWordToken col
  | StoreOp.ilikeOp col pat => isWordToken col && noQuoteToken pat
  | StoreOp.orderOp col _ => orderColToken col
  | StoreOp.limitOp _ => true

/-- Is every call of the built query structured, with a word-token table? -/
def structuredQuery (q : SBQuery) : Bool :=
  isWordToken q.table && q.ops.all structuredOp

/-- Is every store call of the plan structured? -/
def structuredPlan : ExecPlan → Bool
  | ExecPlan.immediate _ _ => true
  | ExecPlan.counted q _ => structuredQuery q
  | ExecPlan.regular q _ => structuredQuery q

/-- Specification-side deduplication: keep a row exactly when an equal row
(all fields equal) has not occurred before, preserving first-occurrence
order. -/
def keepFirstsAux (seen : List Row) : List Row → List Row
  | [] => []
  | r :: rs =>
    if r ∈ seen then keepFirstsAux seen rs
    else r :: keepFirstsAux (r :: seen) rs

/-- Deduplication by full-row equality keeping first occurrences. -/
def keepFirsts (rows : List Row) : List Row :=
  keepFirstsAux [] rows

/-- Lookup in the category-count association list. -/
def alookup : List (String × ℕ) → String → Option ℕ
  | [], _ => none
  | (k, n) :: t, c => if k = c then some n else alookup t c

/-- A character of a serialized integer: a digit or the minus sign. -/
def isNumChar (c : Char) : Bool :=
  c.isDigit || c = '-'

/-- Value of a little-endian digit list. -/
def valLE (ds : List ℕ) : ℕ :=
  ds.foldr (fun d acc => d + 10 * acc) 0

/-! ## Small inversion lemmas -/

theorem applyWhereClause_fields (q : SBQuery) (sql : List Char) :
    (applyWhereClause q sql).table = q.table ∧ (applyWhereClause q sql).columns = q.columns ∧
    (applyWhereClause q sql).countHead = q.countHead := by
  unfold applyWhereClause
  cases findWhere sql <;> simp

/-! ## Claim theorems -/

/-- C5: parsing the statement SELECT * FROM items WHERE price < 50 LIMIT 100
yields target table items, projection *, exactly one structured predicate
less-than on column price with value 50, and limit 100. -/
theorem parse_example_statement :
    parseSQLPlan "SELECT * FROM items WHERE price < 50 LIMIT 100" =
      Except.ok (ExecPlan.regular
        ⟨"items".data, "*".data, none,
         [StoreOp.ltOp "price".data ⟨50, 0⟩, StoreOp.limitOp 100]⟩
        false) := by decide

/-- C6: the multi-line statement with newlines between clauses and a trailing
semicolon produces exactly the same extracted plan (table, projection,
predicates, limit, distinct flag) as its single-line equivalent. -/
theorem parse_multiline_same_as_single_line :
    parseSQLPlan "SELECT *\nFROM items\nWHERE price < 50\nLIMIT 100;" =
      parseSQLPlan "SELECT * FROM items WHERE price < 50 LIMIT 100" := by decide

/-- C4: for every store behavior and every input statement, the caller
receives a structured result: either success with no error, or failure with
an error message and no data rows.  Every failure of the pipeline (unsafe
statement, unparsable table, unsupported shape, store error) is modelled as a
thrown error, and the embedding of the try/catch maps each of them to the
failure result, so no input produces an unhandled exception. -/
theorem executeDynamicQuery_structured_result (store : Store) (sql : String) :
    ((executeDynamicQuery store sql).success = true ∧
      (executeDynamicQuery store sql).error = none) ∨
    ((executeDynamicQuery store sql).success = false ∧
      (executeDynamicQuery store sql).data = [] ∧
      ((executeDynamicQuery store sql).error).isSome = true) := by
  unfold executeDynamicQuery
  cases hs : isSafeQuery sql
  · right; simp
  · cases hw : startsWithList (trimChars (toUpperList sql.data)) "SELECT".data
    · right; simp
    · cases hp : parseAndExecuteSQL store sql with
      | ok p => obtain ⟨d, c⟩ := p; left; simp
      | error e => right; simp

/-- C9 counterexample: the statement SELECT 1 has no table name after any
FROM keyword, yet clause extraction does not fail with the parse error — it
returns an immediate successful result. -/
theorem select_one_no_parse_error :
    findFromTable (trimChars (stripTrailingSemis "SELECT 1".data)) = none ∧
    parseSQLPlan "SELECT 1" =
      Except.ok (ExecPlan.immediate [[("result", Val.vint 1)]] 1) := by decide

/-- C9 amended: for every statement in which no table name can be located by
the FROM regex, clause extraction fails with the could-not-parse-table error,
except the single statement whose cleaned uppercase form is SELECT 1, which
returns an immediate result. -/
theorem parseSQLPlan_no_table_error (sql : String)
    (h1 : findFromTable (trimChars (stripTrailingSemis sql.data)) = none)
    (h2 : toUpperList (trimChars (stripTrailingSemis sql.data)) ≠ "SELECT 1".data) :
    parseSQLPlan sql = Except.error "Could not parse table name from query" := by
  simp only [parseSQLPlan]
  rw [h1]
  simp [h2]

theorem parseSQLPlan_no_table_error_witness :
    findFromTable (trimChars (stripTrailingSemis "SELECT foo".data)) = none ∧
    toUpperList (trimChars (stripTrailingSemis "SELECT foo".data)) ≠ "SELECT 1".data ∧
    parseSQLPlan "SELECT foo" = Except.error "Could not parse table name from query" :=
  ⟨by decide, by decide, parseSQLPlan_no_table_error "SELECT foo" (by decide) (by decide)⟩

/-- C10: the safety validator is total and fails closed.  The body of
isSafeQuery begins with a string-method call that throws on every non-string
argument; the try/catch turns every thrown error into the verdict false, so
the function returns a boolean on every input value, non-string arguments
yield unsafe, and a true verdict can only arise from the body itself
returning true. -/
theorem isSafeQueryJS_fail_closed (v : JSVal) :
    (∀ e, isSafeQueryBody v = Except.error e → isSafeQueryJS v = false) ∧
    (v.isString = false → isSafeQueryJS v = false) ∧
    (isSafeQueryJS v = true → isSafeQueryBody v = Except.ok true) := by
  cases v <;> simp [isSafeQueryJS, isSafeQueryBody, JSVal.isString]

theorem isSafeQueryJS_fail_closed_witness :
    JSVal.isString (JSVal.jnum 3) = false ∧ isSafeQueryJS (JSVal.jnum 3) = false :=
  ⟨by decide, (isSafeQueryJS_fail_closed (JSVal.jnum 3)).2.1 (by decide)⟩

/-- C3 counterexample: for the COUNT(*) statement below, the built plan
issues the select with the exact-count option but head set to false, so the
store call does fetch row bodies rather than using the no-rows count mode. -/
theorem count_query_fetches_rows :
    isCountStyle "SELECT COUNT(*) FROM items" = true ∧
    parseSQLPlan "SELECT COUNT(*) FROM items" =
      Except.ok (ExecPlan.counted ⟨"items".data, "*".data, some false, []⟩ false) ∧
    planNoRowFetch (ExecPlan.counted ⟨"items".data, "*".data, some false, []⟩ false) = false := by
  decide

/-- C3 amended: every COUNT(*) statement without the GROUP BY shape is
executed through a select carrying the exact-count option with head false
(so rows are fetched), and the returned data is built from the count value
alone — a single total row — discarding the fetched row bodies. -/
theorem count_query_uses_count_value (sql : String) (q : SBQuery)
    (h : parseSQLPlan sql = Except.ok (ExecPlan.counted q false)) :
    q.columns = "*".data ∧ q.countHead = some false ∧
    ∀ (store : Store) (rows : List Row) (cnt : Option ℕ),
      store q = Except.ok (rows, cnt) →
      parseAndExecuteSQL store sql = Except.ok ([[("total", countVal cnt)]], 1) := by
  have hq : q.columns = "*".data ∧ q.countHead = some false := by
    simp only [parseSQLPlan] at h
    split at h
    · split at h <;> simp_all
    · split at h
      · split at h
        · split at h <;> simp_all
        · simp only [Except.ok.injEq, ExecPlan.counted.injEq] at h
          obtain ⟨hq1, _⟩ := h
          rw [← hq1]
          exact ⟨(applyWhereClause_fields _ _).2.1, (applyWhereClause_fields _ _).2.2⟩
      · simp_all
  refine ⟨hq.1, hq.2, ?_⟩
  intro store rows cnt hstore
  unfold parseAndExecuteSQL
  rw [h]
  simp [Except.bind, runPlan, hstore]

theorem count_query_uses_count_value_witness :
    parseSQLPlan "SELECT COUNT(*) FROM items" =
      Except.ok (ExecPlan.counted ⟨"items".data, "*".data, some false, []⟩ false) ∧
    parseAndExecuteSQL (fun _ => Except.ok ([[("x", Val.vint 9)]], some 7))
        "SELECT COUNT(*) FROM items" =
      Except.ok ([[("total", Val.vint 7)]], 1) :=
  ⟨by decide,
   (count_query_uses_count_value "SELECT COUNT(*) FROM items"
      ⟨"items".data, "*".data, some false, []⟩ (by decide)).2.2
     (fun _ => Except.ok ([[("x", Val.vint 9)]], some 7)) [[("x", Val.vint 9)]] (some 7) rfl⟩

/-- C2 counterexample: the statement SELECT created_date FROM items contains
no blocked keyword as a whole word (CREATE occurs only inside the identifier
created_date), yet the src/src validator — one of the two cited validators —
rejects it, because its keyword matching is naive substring search. -/
theorem src_validator_rejects_embedded_keyword :
    containsWordCI "CREATE".data (normWs "SELECT created_date FROM items".data) = false ∧
    srcIsSafeQuery "SELECT created_date FROM items" = false := by decide

/-- C2 amended: for the backend validator, every statement containing one of
the eleven blocked keywords as a whole word (word-boundary, case-insensitive
match on the cleaned text) is unsafe, and a statement whose only occurrence
of a keyword is embedded in a longer identifier is not rejected: the
created_date statement passes although its uppercased text contains CREATE as
a substring.  The src/src validator instead matches keywords by naive
substring search and rejects that statement. -/
theorem isSafeQuery_word_boundary :
    (∀ (sql : String) (kw : List Char),
        kw ∈ dangerousKeywords ++ ["INTO".data, "VALUES".data] →
        containsWordCI kw (normWs sql.data) = true → isSafeQuery sql = false) ∧
    isSafeQuery "SELECT created_date FROM items" = true ∧
    substrContains (toUpperList (normWs "SELECT created_date FROM items".data))
      "CREATE".data = true := by
  refine ⟨?_, by decide, by decide⟩
  intro sql kw hmem h
  unfold isSafeQuery isSafeQueryChecks
  cases hstart : startsWithList (toUpperList (normWs sql.data)) "SELECT".data
  · simp [hstart]
  · cases hany : dangerousKeywords.any (fun kw2 => containsWordCI kw2 (normWs sql.data))
    · have hkw : kw = "INTO".data ∨ kw = "VALUES".data := by
        rcases List.mem_append.mp hmem with h9 | h2
        · have hup : dangerousKeywords.any
              (fun kw2 => containsWordCI kw2 (normWs sql.data)) = true := by
            rw [List.any_eq_true]
            exact ⟨kw, h9, h⟩
          exact absurd hup (by simp [hany])
        · simpa using h2
      have h3 : (containsWordCI "INTO".data (normWs sql.data) ||
                 containsWordCI "VALUES".data (normWs sql.data)) = true := by
        rcases hkw with rfl | rfl
        · simp [h]
        · simp [h]
      simp [hstart, hany, h3]
    · simp [hstart, hany]

theorem isSafeQuery_word_boundary_witness :
    isSafeQuery "SELECT * FROM items WHERE x = 1; DROP TABLE items" = false ∧
    isSafeQuery "SELECT created_date FROM items" = true :=
  ⟨isSafeQuery_word_boundary.1 "SELECT * FROM items WHERE x = 1; DROP TABLE items"
     "DROP".data (by decide) (by decide),
   isSafeQuery_word_boundary.2.1⟩

/-! ## Shape lemmas for the scanners: every captured column is a word token -/

theorem takeWhile_wordToken {s : List Char}
    (h : (s.takeWhile isWordChar).isEmpty = false) :
    isWordToken (s.takeWhile isWordChar) = true := by
  unfold isWordToken
  rw [Bool.and_eq_true, List.all_eq_true]
  constructor
  · rw [h]
    rfl
  · intro c hc
    exact List.mem_takeWhile_imp hc

theorem takeWhile_noQuoteToken {s : List Char}
    (h : (s.takeWhile (fun ch => ch ≠ quoteChar)).isEmpty = false) :
    noQuoteToken (s.takeWhile (fun ch => ch ≠ quoteChar)) = true := by
  unfold noQuoteToken
  rw [Bool.and_eq_true, List.all_eq_true]
  constructor
  · rw [h]
    rfl
  · intro c hc
    simpa using List.mem_takeWhile_imp hc

theorem tryCmpAt_wordToken {opLit s col after : List Char} {d : DecNum}
    (h : tryCmpAt opLit s = some (col, d, after)) : isWordToken col = true := by
  simp only [tryCmpAt] at h
  split at h
  · cases h
  · split at h
    · cases h
    · split at h
      · cases h
      · simp only [Option.some.injEq, Prod.mk.injEq] at h
        obtain ⟨h1, -, -⟩ := h
        subst h1
        exact takeWhile_wordToken (by simp_all)

theorem tryEqStrAt_shape {s col v after : List Char}
    (h : tryEqStrAt s = some (col, v, after)) :
    isWordToken col = true ∧ noQuoteToken v = true := by
  simp only [tryEqStrAt] at h
  split at h
  · cases h
  · split at h
    · split at h
      · split at h
        · split at h
          · split at h
            · cases h
            · split at h
              · split at h
                · simp only [Option.some.injEq, Prod.mk.injEq] at h
                  obtain ⟨h1, h2, -⟩ := h
                  subst h1; subst h2
                  refine ⟨takeWhile_wordToken (by simp_all), takeWhile_noQuoteToken (by simp_all)⟩
                · cases h
              · cases h
          · cases h
        · cases h
      · cases h
    · cases h

theorem tryIlikeAt_shape {s col v after : List Char}
    (h : tryIlikeAt s = some (col, v, after)) :
    isWordToken col = true ∧ noQuoteToken v = true := by
  simp only [tryIlikeAt] at h
  split at h
  · cases h
  · split at h
    · cases h
    · split at h
      · cases h
      · split at h
        · split at h
          · split at h
            · cases h
            · split at h
              · split at h
                · simp only [Option.some.injEq, Prod.mk.injEq] at h
                  obtain ⟨h1, h2, -⟩ := h
                  subst h1; subst h2
                  refine ⟨takeWhile_wordToken (by simp_all), takeWhile_noQuoteToken (by simp_all)⟩
                · cases h
              · cases h
          · cases h
        · cases h

theorem tryBetweenAt_wordToken {s col : List Char} {lo hi : DecNum}
    (h : tryBetweenAt s = some (col, lo, hi)) : isWordToken col = true := by
  simp only [tryBetweenAt] at h
  split at h
  · cases h
  · split at h
    · cases h
    · split at h
      · cases h
      · split at h
        · cases h
        · split at h
          · cases h
          · split at h
            · cases h
            · split at h
              · cases h
              · split at h
                · cases h
                · split at h
                  · cases h
                  · simp only [Option.some.injEq, Prod.mk.injEq] at h
                    obtain ⟨h1, -, -⟩ := h
                    subst h1
                    exact takeWhile_wordToken (by simp_all)

theorem scanCmpF_wordToken (opLit : List Char) :
    ∀ (fuel : ℕ) (s col : List Char) (d : DecNum),
      (col, d) ∈ scanCmpF opLit fuel s → isWordToken col = true := by
  intro fuel
  induction fuel with
  | zero => intro s col d h; simp [scanCmpF] at h
  | succ n ih =>
    intro s col d h
    cases s with
    | nil => simp [scanCmpF] at h
    | cons c rest =>
      cases htry : tryCmpAt opLit (c :: rest) with
      | none =>
        simp only [scanCmpF, htry] at h
        exact ih rest col d h
      | some trip =>
        obtain ⟨w, dd, after⟩ := trip
        simp only [scanCmpF, htry] at h
        rcases List.mem_cons.mp h with hh | ht
        · obtain ⟨rfl, rfl⟩ := Prod.mk.injEq .. ▸ hh
          exact tryCmpAt_wordToken htry
        · exact ih after col d ht

theorem scanEqStrF_shape :
    ∀ (fuel : ℕ) (s col v : List Char),
      (col, v) ∈ scanEqStrF fuel s → isWordToken col = true ∧ noQuoteToken v = true := by
  intro fuel
  induction fuel with
  | zero => intro s col v h; simp [scanEqStrF] at h
  | succ n ih =>
    intro s col v h
    cases s with
    | nil => simp [scanEqStrF] at h
    | cons c rest =>
      cases htry : tryEqStrAt (c :: rest) with
      | none =>
        simp only [scanEqStrF, htry] at h
        exact ih rest col v h
      | some trip =>
        obtain ⟨w, vv, after⟩ := trip
        simp only [scanEqStrF, htry] at h
        rcases List.mem_cons.mp h with hh | ht
        · obtain ⟨rfl, rfl⟩ := Prod.mk.injEq .. ▸ hh
          exact tryEqStrAt_shape htry
        · exact ih after col v ht

theorem scanIlikeF_shape :
    ∀ (fuel : ℕ) (s col v : List Char),
      (col, v) ∈ scanIlikeF fuel s → isWordToken col = true ∧ noQuoteToken v = true := by
  intro fuel
  induction fuel with
  | zero => intro s col v h; simp [scanIlikeF] at h
  | succ n ih =>
    intro s col v h
    cases s with
    | nil => simp [scanIlikeF] at h
    | cons c rest =>
      cases htry : tryIlikeAt (c :: rest) with
      | none =>
        simp only [scanIlikeF, htry] at h
        exact ih rest col v h
      | some trip =>
        obtain ⟨w, vv, after⟩ := trip
        simp only [scanIlikeF, htry] at h
        rcases List.mem_cons.mp h with hh | ht
        · obtain ⟨rfl, rfl⟩ := Prod.mk.injEq .. ▸ hh
          exact tryIlikeAt_shape htry
        · exact ih after col v ht

theorem findBetween_wordToken :
    ∀ (s col : List Char) (lo hi : DecNum),
      findBetween s = some (col, lo, hi) → isWordToken col = true := by
  intro s
  induction s with
  | nil => intro col lo hi h; simp [findBetween] at h
  | cons c rest ih =>
    intro col lo hi h
    cases htry : tryBetweenAt (c :: rest) with
    | none =>
      simp only [findBetween, htry] at h
      exact ih col lo hi h
    | some trip =>
      obtain ⟨w, l2, h2⟩ := trip
      simp only [findBetween, htry, Option.some.injEq, Prod.mk.injEq] at h
      obtain ⟨rfl, -, -⟩ := h
      exact tryBetweenAt_wordToken htry

theorem tryFromAt_wordToken {s w : List Char} (h : tryFromAt s = some w) :
    isWordToken w = true := by
  simp only [tryFromAt] at h
  split at h
  · cases h
  · split at h
    · cases h
    · split at h
      · cases h
      · simp only [Option.some.injEq] at h
        subst h
        exact takeWhile_wordToken (by simp_all)

theorem findFromTable_wordToken :
    ∀ (s w : List Char), findFromTable s = some w → isWordToken w = true := by
  intro s
  induction s with
  | nil => intro w h; simp [findFromTable] at h
  | cons c rest ih =>
    intro w h
    cases htry : tryFromAt (c :: rest) with
    | none =>
      simp only [findFromTable, htry] at h
      exact ih w h
    | some w2 =>
      simp only [findFromTable, htry, Option.some.injEq] at h
      subst h
      exact tryFromAt_wordToken htry

theorem trimChars_subset {s : List Char} : ∀ c ∈ trimChars s, c ∈ s := by
  intro c hc
  unfold trimChars at hc
  rw [List.mem_reverse] at hc
  have hc2 := (List.dropWhile_sublist isWsChar).subset hc
  rw [List.mem_reverse] at hc2
  exact (List.dropWhile_sublist isWsChar).subset hc2

theorem wsTokensF_chars :
    ∀ (fuel : ℕ) (s tok : List Char), tok ∈ wsTokensF fuel s →
      ∀ c ∈ tok, isWsChar c = false ∧ c ∈ s := by
  intro fuel
  induction fuel with
  | zero => intro s tok h; simp [wsTokensF] at h
  | succ n ih =>
    intro s tok h c hc
    cases s with
    | nil => simp [wsTokensF] at h
    | cons a rest =>
      by_cases ha : isWsChar a = true
      · simp only [wsTokensF, ha, if_true] at h
        have hr := ih rest tok h c hc
        exact ⟨hr.1, List.mem_cons_of_mem a hr.2⟩
      · have ha2 : isWsChar a = false := by simpa using ha
        simp only [wsTokensF, ha2, Bool.false_eq_true, if_false] at h
        rcases List.mem_cons.mp h with rfl | ht
        · rcases List.mem_cons.mp hc with rfl | hc2
          · exact ⟨ha2, List.mem_cons_self c rest⟩
          · have hp := List.mem_takeWhile_imp hc2
            have hm := (List.takeWhile_sublist (fun d => !isWsChar d)).subset hc2
            refine ⟨by simpa using hp, List.mem_cons_of_mem a hm⟩
        · have hr := ih (rest.dropWhile (fun d => !isWsChar d)) tok ht c hc
          exact ⟨hr.1, List.mem_cons_of_mem a
            ((List.dropWhile_sublist (fun d => !isWsChar d)).subset hr.2)⟩

theorem orderCol_token_ok (oc : List Char) :
    orderColToken
      ((splitWsTrimmed (trimChars (oc.takeWhile (fun c => c ≠ ',')))).headD []) = true := by
  unfold splitWsTrimmed
  by_cases he : (trimChars (oc.takeWhile (fun c => c ≠ ','))).isEmpty = true
  · rw [if_pos he]
    rfl
  · rw [if_neg he]
    cases hw : wsTokens (trimChars (oc.takeWhile (fun c => c ≠ ','))) with
    | nil => rfl
    | cons t ts =>
      have hmem : t ∈ wsTokens (trimChars (oc.takeWhile (fun c => c ≠ ','))) := by
        rw [hw]
        exact List.mem_cons_self t ts
      unfold wsTokens at hmem
      simp only [List.headD_cons]
      unfold orderColToken
      rw [List.all_eq_true]
      intro c hc
      have hchars := wsTokensF_chars _ _ t hmem c hc
      have hcomma : c ≠ ',' := by
        have h1 := trimChars_subset c hchars.2
        have h2 := List.mem_takeWhile_imp h1
        simpa using h2
      simp [hchars.1, hcomma]

theorem all_structured_eqStr (wc : List Char) :
    (((scanEqStr wc).map fun m => StoreOp.eqOp m.1 (Lit.lstr m.2)).all structuredOp) = true := by
  rw [List.all_eq_true]
  intro op hop
  rw [List.mem_map] at hop
  obtain ⟨m, hm, rfl⟩ := hop
  obtain ⟨col, v⟩ := m
  unfold scanEqStr at hm
  have hs := scanEqStrF_shape _ _ col v hm
  simp [structuredOp, hs.1, hs.2]

theorem all_structured_cmp (wc opLit : List Char) (f : List Char × DecNum → StoreOp)
    (hf : ∀ col d, isWordToken col = true → structuredOp (f (col, d)) = true) :
    (((scanCmp opLit wc).map f).all structuredOp) = true := by
  rw [List.all_eq_true]
  intro op hop
  rw [List.mem_map] at hop
  obtain ⟨m, hm, rfl⟩ := hop
  obtain ⟨col, d⟩ := m
  unfold scanCmp at hm
  exact hf col d (scanCmpF_wordToken opLit _ _ col d hm)

theorem all_structured_ilike (wc : List Char) :
    (((scanIlike wc).map fun m => StoreOp.ilikeOp m.1 m.2).all structuredOp) = true := by
  rw [List.all_eq_true]
  intro op hop
  rw [List.mem_map] at hop
  obtain ⟨m, hm, rfl⟩ := hop
  obtain ⟨col, v⟩ := m
  unfold scanIlike at hm
  have hs := scanIlikeF_shape _ _ col v hm
  simp [structuredOp, hs.1, hs.2]

theorem all_structured_between (wc : List Char) :
    ((match findBetween wc with
      | some (col, lo, hi) => [StoreOp.gteOp col lo, StoreOp.lteOp col hi]
      | none => []).all structuredOp) = true := by
  cases hb : findBetween wc with
  | none => rfl
  | some trip =>
    obtain ⟨col, lo, hi⟩ := trip
    have hcol := findBetween_wordToken wc col lo hi hb
    simp [structuredOp, hcol]

theorem whereClauseOps_structured (wc : List Char) :
    (whereClauseOps wc).all structuredOp = true := by
  unfold whereClauseOps
  simp only [List.all_append, Bool.and_eq_true]
  refine ⟨⟨⟨⟨⟨⟨⟨?_, ?_⟩, ?_⟩, ?_⟩, ?_⟩, ?_⟩, ?_⟩, ?_⟩
  · exact all_structured_eqStr wc
  · exact all_structured_cmp wc _ _ (fun col d h => by simp [structuredOp, h])
  · exact all_structured_cmp wc _ _ (fun col d h => by simp [structuredOp, h])
  · exact all_structured_cmp wc _ _ (fun col d h => by simp [structuredOp, h])
  · exact all_structured_cmp wc _ _ (fun col d h => by simp [structuredOp, h])
  · exact all_structured_cmp wc _ _ (fun col d h => by simp [structuredOp, h])
  · exact all_structured_between wc
  · exact all_structured_ilike wc

theorem applyWhereClause_structured (q : SBQuery) (sql : List Char)
    (h : q.ops.all structuredOp = true) :
    (applyWhereClause q sql).ops.all structuredOp = true := by
  unfold applyWhereClause
  cases findWhere sql with
  | none => exact h
  | some cap =>
    simp only
    rw [List.all_append, h, whereClauseOps_structured]
    rfl

theorem applyOrderBy_structured (q : SBQuery) (sql : List Char)
    (h : q.ops.all structuredOp = true) :
    (applyOrderBy q sql).ops.all structuredOp = true := by
  unfold applyOrderBy
  cases findOrder sql with
  | none => exact h
  | some cap =>
    simp only
    rw [List.all_append, h]
    simp only [List.all_cons, List.all_nil, Bool.and_true, Bool.true_and]
    exact orderCol_token_ok (trimChars cap)

theorem applyLimit_structured (q : SBQuery) (sql : List Char)
    (h : q.ops.all structuredOp = true) :
    (applyLimit q sql).ops.all structuredOp = true := by
  unfold applyLimit
  cases findLimit sql with
  | none => exact h
  | some n =>
    simp only
    rw [List.all_append, h]
    rfl

theorem applyOrderBy_table (q : SBQuery) (sql : List Char) :
    (applyOrderBy q sql).table = q.table := by
  unfold applyOrderBy
  cases findOrder sql <;> simp

theorem applyLimit_table (q : SBQuery) (sql : List Char) :
    (applyLimit q sql).table = q.table := by
  unfold applyLimit
  cases findLimit sql <;> simp

theorem built_query_structured (t cols : List Char) (ch : Option Bool) (sql : List Char)
    (ht : isWordToken t = true) :
    structuredQuery (applyLimit (applyOrderBy
      (applyWhereClause ⟨t, cols, ch, []⟩ sql) sql) sql) = true := by
  unfold structuredQuery
  rw [Bool.and_eq_true]
  constructor
  · rw [applyLimit_table, applyOrderBy_table, (applyWhereClause_fields _ _).1]
    exact ht
  · exact applyLimit_structured _ _ (applyOrderBy_structured _ _
      (applyWhereClause_structured _ _ (by rfl)))

theorem where_query_structured (t cols : List Char) (ch : Option Bool) (sql : List Char)
    (ht : isWordToken t = true) :
    structuredQuery (applyWhereClause ⟨t, cols, ch, []⟩ sql) = true := by
  unfold structuredQuery
  rw [Bool.and_eq_true]
  exact ⟨by rw [(applyWhereClause_fields _ _).1]; exact ht,
    applyWhereClause_structured _ _ (by rfl)⟩

/-- C1: for every statement the parser accepts, every call the built plan
makes on the store client is a typed, column-level operator call: each filter
operator (eq, lt, gt, gte, lte, ilike) carries a column that is a bare
nonempty word token and a parsed literal (string literals are quote-free),
the ordering call carries a token without whitespace or commas, the limit
call carries a parsed integer, and the table is a word token.  In particular
the raw WHERE text — which contains operators, spaces or quotes whenever it
expresses a predicate — is never forwarded to the store as a filter string:
every predicate reaching the store is an operator call derived by regex
extraction from the WHERE text. -/
theorem parseSQLPlan_structured (sql : String) (p : ExecPlan)
    (h : parseSQLPlan sql = Except.ok p) : structuredPlan p = true := by
  simp only [parseSQLPlan] at h
  split at h
  · split at h
    · simp only [Except.ok.injEq] at h
      subst h
      rfl
    · cases h
  · rename_i tableName heq
    have ht := findFromTable_wordToken _ _ heq
    split at h
    · split at h
      · split at h
        · simp only [Except.ok.injEq] at h
          subst h
          simpa [structuredPlan, applyGroupBy] using
            where_query_structured tableName _ none _ ht
        · simp only [Except.ok.injEq] at h
          subst h
          simpa [structuredPlan] using
            where_query_structured tableName _ (some false) _ ht
      · simp only [Except.ok.injEq] at h
        subst h
        simpa [structuredPlan] using
          where_query_structured tableName _ (some false) _ ht
    · simp only [Except.ok.injEq] at h
      subst h
      simpa [structuredPlan] using built_query_structured tableName _ none _ ht

theorem parseSQLPlan_structured_witness :
    structuredPlan (ExecPlan.regular
      ⟨"items".data, "*".data, none,
       [StoreOp.ltOp "price".data ⟨50, 0⟩, StoreOp.limitOp 100]⟩ false) = true :=
  parseSQLPlan_structured "SELECT * FROM items WHERE price < 50 LIMIT 100" _ (by decide)

/-! ## Injectivity of the row serialization -/

theorem valLE_natDigitsF : ∀ (fuel n : ℕ), n ≤ fuel → valLE (natDigitsF fuel n) = n := by
  intro fuel
  induction fuel with
  | zero =>
    intro n h
    have hn : n = 0 := Nat.le_zero.mp h
    subst hn
    rfl
  | succ m ih =>
    intro n h
    cases n with
    | zero => rfl
    | succ k =>
      have hdiv : (k + 1) / 10 ≤ m := by
        have h1 : (k + 1) / 10 < k + 1 := Nat.div_lt_self (Nat.succ_pos k) (by norm_num)
        omega
      simp only [natDigitsF, valLE, List.foldr_cons]
      have ihd := ih _ hdiv
      unfold valLE at ihd
      rw [ihd, Nat.mod_add_div]

theorem natDigitsLE_inj {a b : ℕ} (h : natDigitsLE a = natDigitsLE b) : a = b := by
  have ha := valLE_natDigitsF a a (le_refl a)
  have hb := valLE_natDigitsF b b (le_refl b)
  unfold natDigitsLE at h
  rw [← ha, ← hb, h]

theorem natDigitsF_lt_ten : ∀ (fuel n d : ℕ), d ∈ natDigitsF fuel n → d < 10 := by
  intro fuel
  induction fuel with
  | zero => intro n d h; simp [natDigitsF] at h
  | succ m ih =>
    intro n d h
    cases n with
    | zero => simp [natDigitsF] at h
    | succ k =>
      simp only [natDigitsF, List.mem_cons] at h
      rcases h with rfl | h
      · exact Nat.mod_lt _ (by norm_num)
      · exact ih _ d h

theorem digitChar_inj_lt : ∀ a, a < 10 → ∀ b, b < 10 → digitChar a = digitChar b → a = b := by
  decide

theorem natDigitsLE_lt_ten (n : ℕ) : ∀ d ∈ natDigitsLE n, d < 10 :=
  fun d hd => natDigitsF_lt_ten n n d hd

theorem digitChar_isDigit : ∀ d : ℕ, (digitChar d).isDigit = true := by
  intro d
  match d with
  | 0 => rfl
  | 1 => rfl
  | 2 => rfl
  | 3 => rfl
  | 4 => rfl
  | 5 => rfl
  | 6 => rfl
  | 7 => rfl
  | 8 => rfl
  | n + 9 => rfl

theorem map_digitChar_inj :
    ∀ (xs ys : List ℕ), (∀ x ∈ xs, x < 10) → (∀ y ∈ ys, y < 10) →
      xs.map digitChar = ys.map digitChar → xs = ys := by
  intro xs
  induction xs with
  | nil =>
    intro ys _ _ h
    cases ys with
    | nil => rfl
    | cons y yt => simp at h
  | cons x xt ih =>
    intro ys hx hy h
    cases ys with
    | nil => simp at h
    | cons y yt =>
      simp only [List.map_cons, List.cons.injEq] at h
      have hxy := digitChar_inj_lt x (hx x (by simp)) y (hy y (by simp)) h.1
      subst hxy
      rw [ih yt (fun a ha => hx a (by simp [ha])) (fun a ha => hy a (by simp [ha])) h.2]

theorem natRepr_inj : ∀ a b : ℕ, natRepr a = natRepr b → a = b := by
  intro a b h
  unfold natRepr at h
  by_cases ha : a = 0 <;> by_cases hb : b = 0
  · rw [ha, hb]
  · exfalso
    rw [if_pos ha, if_neg hb] at h
    have hmap : (natDigitsLE b).map digitChar = ['0'] := by
      rw [← List.reverse_reverse ((natDigitsLE b).map digitChar), ← h]
      rfl
    have hdig : natDigitsLE b = [0] := by
      apply map_digitChar_inj (natDigitsLE b) [0] (natDigitsLE_lt_ten b)
        (by intro y hy; simp at hy; omega)
      rw [hmap]
      rfl
    have := valLE_natDigitsF b b (le_refl b)
    unfold natDigitsLE at hdig
    rw [hdig] at this
    exact hb (by simpa [valLE] using this.symm)
  · exfalso
    rw [if_neg ha, if_pos hb] at h
    have hmap : (natDigitsLE a).map digitChar = ['0'] := by
      rw [← List.reverse_reverse ((natDigitsLE a).map digitChar), h]
      rfl
    have hdig : natDigitsLE a = [0] := by
      apply map_digitChar_inj (natDigitsLE a) [0] (natDigitsLE_lt_ten a)
        (by intro y hy; simp at hy; omega)
      rw [hmap]
      rfl
    have := valLE_natDigitsF a a (le_refl a)
    unfold natDigitsLE at hdig
    rw [hdig] at this
    exact ha (by simpa [valLE] using this.symm)
  · rw [if_neg ha, if_neg hb] at h
    have h2 := List.reverse_injective h
    have h3 := map_digitChar_inj (natDigitsLE a) (natDigitsLE b)
      (natDigitsLE_lt_ten a) (natDigitsLE_lt_ten b) h2
    exact natDigitsLE_inj h3

theorem natRepr_chars : ∀ (n : ℕ) (c : Char), c ∈ natRepr n → c.isDigit = true := by
  intro n c h
  unfold natRepr at h
  by_cases hn : n = 0
  · rw [if_pos hn] at h
    simp at h
    rw [h]
    rfl
  · rw [if_neg hn, List.mem_reverse, List.mem_map] at h
    obtain ⟨d, -, rfl⟩ := h
    exact digitChar_isDigit d

theorem natRepr_ne_nil (n : ℕ) : natRepr n ≠ [] := by
  unfold natRepr
  by_cases hn : n = 0
  · rw [if_pos hn]
    simp
  · rw [if_neg hn]
    cases n with
    | zero => exact absurd rfl hn
    | succ k => simp [natDigitsLE, natDigitsF]

theorem intRepr_chars : ∀ (n : ℤ) (c : Char), c ∈ intRepr n → isNumChar c = true := by
  intro n c h
  unfold intRepr at h
  unfold isNumChar
  split at h
  · rcases List.mem_cons.mp h with rfl | h2
    · rfl
    · simp [natRepr_chars _ c h2]
  · simp [natRepr_chars _ c h]

theorem intRepr_ne_nil (n : ℤ) : intRepr n ≠ [] := by
  unfold intRepr
  split
  · simp
  · exact natRepr_ne_nil _

theorem intRepr_inj : ∀ a b : ℤ, intRepr a = intRepr b → a = b := by
  intro a b h
  unfold intRepr at h
  split at h <;> split at h
  · rename_i ha hb
    simp only [List.cons.injEq] at h
    have := natRepr_inj _ _ h.2
    omega
  · rename_i ha hb
    exfalso
    cases he : natRepr b.toNat with
    | nil => exact natRepr_ne_nil _ he
    | cons c cs =>
      rw [he] at h
      simp only [List.cons.injEq] at h
      have hc : c ∈ natRepr b.toNat := by rw [he]; exact List.mem_cons_self c cs
      have hd := natRepr_chars _ c hc
      rw [← h.1] at hd
      exact absurd hd (by decide)
  · rename_i ha hb
    exfalso
    cases he : natRepr a.toNat with
    | nil => exact natRepr_ne_nil _ he
    | cons c cs =>
      rw [he] at h
      simp only [List.cons.injEq] at h
      have hc : c ∈ natRepr a.toNat := by rw [he]; exact List.mem_cons_self c cs
      have hd := natRepr_chars _ c hc
      rw [h.1] at hd
      exact absurd hd (by decide)
  · rename_i ha hb
    have := natRepr_inj _ _ h
    omega

theorem escString_quote_inj :
    ∀ (a b r1 r2 : List Char),
      escString a ++ dquoteChar :: r1 = escString b ++ dquoteChar :: r2 →
      a = b ∧ r1 = r2 := by
  intro a
  induction a with
  | nil =>
    intro b r1 r2 h
    cases b with
    | nil =>
      simp only [escString, List.nil_append, List.cons.injEq] at h
      exact ⟨rfl, h.2⟩
    | cons d bt =>
      exfalso
      by_cases hd : d = dquoteChar ∨ d = bslashChar
      · simp only [escString, escChar, if_pos hd, List.nil_append, List.cons_append,
          List.cons.injEq] at h
        exact absurd h.1 (by decide)
      · simp only [escString, escChar, if_neg hd, List.nil_append, List.cons_append,
          List.cons.injEq] at h
        exact hd (Or.inl h.1.symm)
  | cons c at2 ih =>
    intro b r1 r2 h
    cases b with
    | nil =>
      exfalso
      by_cases hc : c = dquoteChar ∨ c = bslashChar
      · simp only [escString, escChar, if_pos hc, List.nil_append, List.cons_append,
          List.cons.injEq] at h
        exact absurd h.1 (by decide)
      · simp only [escString, escChar, if_neg hc, List.nil_append, List.cons_append,
          List.cons.injEq] at h
        exact hc (Or.inl h.1)
    | cons d bt =>
      by_cases hc : c = dquoteChar ∨ c = bslashChar <;>
        by_cases hd : d = dquoteChar ∨ d = bslashChar
      · simp only [escString, escChar, if_pos hc, if_pos hd, List.cons_append,
          List.append_assoc, List.cons.injEq] at h
        obtain ⟨-, hcd, htail⟩ := h
        subst hcd
        obtain ⟨h1, h2⟩ := ih bt r1 r2 (by simpa using htail)
        exact ⟨by rw [h1], h2⟩
      · exfalso
        simp only [escString, escChar, if_pos hc, if_neg hd, List.cons_append,
          List.append_assoc, List.cons.injEq] at h
        exact hd (Or.inr h.1.symm)
      · exfalso
        simp only [escString, escChar, if_neg hc, if_pos hd, List.cons_append,
          List.append_assoc, List.cons.injEq] at h
        exact hc (Or.inr h.1)
      · simp only [escString, escChar, if_neg hc, if_neg hd, List.cons_append,
          List.cons.injEq] at h
        obtain ⟨hcd, htail⟩ := h
        subst hcd
        obtain ⟨h1, h2⟩ := ih bt r1 r2 htail
        exact ⟨by rw [h1], h2⟩

theorem append_cancel_disjoint (p : Char → Bool) :
    ∀ (xs ys : List Char) (d1 d2 : Char) (t1 t2 : List Char),
      (∀ c ∈ xs, p c = true) → (∀ c ∈ ys, p c = true) → p d1 = false → p d2 = false →
      xs ++ d1 :: t1 = ys ++ d2 :: t2 → xs = ys ∧ d1 = d2 ∧ t1 = t2 := by
  intro xs
  induction xs with
  | nil =>
    intro ys d1 d2 t1 t2 hx hy h1 h2 h
    cases ys with
    | nil =>
      simp only [List.nil_append, List.cons.injEq] at h
      exact ⟨rfl, h.1, h.2⟩
    | cons y yt =>
      exfalso
      simp only [List.nil_append, List.cons_append, List.cons.injEq] at h
      have hpy := hy y (by simp)
      rw [← h.1] at hpy
      rw [hpy] at h1
      cases h1
  | cons x xt ih =>
    intro ys d1 d2 t1 t2 hx hy h1 h2 h
    cases ys with
    | nil =>
      exfalso
      simp only [List.nil_append, List.cons_append, List.cons.injEq] at h
      have hpx := hx x (by simp)
      rw [h.1] at hpx
      rw [hpx] at h2
      cases h2
    | cons y yt =>
      simp only [List.cons_append, List.cons.injEq] at h
      obtain ⟨rfl, ht⟩ := h
      obtain ⟨ha, hb, hc⟩ := ih yt d1 d2 t1 t2 (fun c hc => hx c (by simp [hc]))
        (fun c hc => hy c (by simp [hc])) h1 h2 ht
      exact ⟨by rw [ha], hb, hc⟩

theorem delim_not_num {d : Char} (h : d = ',' ∨ d = rbraceChar) : isNumChar d = false := by
  rcases h with rfl | rfl <;> decide

theorem serVal_ne_nil (v : Val) : serVal v ≠ [] := by
  cases v with
  | vstr s => simp [serVal, quoteStr]
  | vint n => exact intRepr_ne_nil n
  | vbool b => cases b <;> simp [serVal]
  | vnull => simp [serVal]

theorem serVal_cancel :
    ∀ (v w : Val) (d1 d2 : Char) (t1 t2 : List Char),
      (d1 = ',' ∨ d1 = rbraceChar) → (d2 = ',' ∨ d2 = rbraceChar) →
      serVal v ++ d1 :: t1 = serVal w ++ d2 :: t2 →
      v = w ∧ d1 = d2 ∧ t1 = t2 := by
  have hIntHead : ∀ (n : ℤ) (c0 : Char) (rest tail : List Char),
      intRepr n ++ tail = c0 :: rest → isNumChar c0 = false → False := by
    intro n c0 rest tail h hnum
    cases he : intRepr n with
    | nil => exact intRepr_ne_nil n he
    | cons c cr =>
      rw [he, List.cons_append] at h
      simp only [List.cons.injEq] at h
      have hc : c ∈ intRepr n := by rw [he]; exact List.mem_cons_self c cr
      have hnc := intRepr_chars n c hc
      rw [h.1] at hnc
      rw [hnc] at hnum
      cases hnum
  intro v w d1 d2 t1 t2 hd1 hd2 h
  cases v with
  | vstr s =>
    cases w with
    | vstr u =>
      simp only [serVal, quoteStr, List.cons_append, List.append_assoc, List.cons.injEq,
        List.singleton_append, List.nil_append, true_and] at h
      obtain ⟨su, htail⟩ := escString_quote_inj _ _ _ _ h
      have hsu : s = u := by
        cases s; cases u
        exact congrArg String.mk su
      simp only [List.cons.injEq] at htail
      exact ⟨by rw [hsu], htail.1, htail.2⟩
    | vint n =>
      exfalso
      simp only [serVal, quoteStr, List.cons_append] at h
      exact hIntHead n dquoteChar _ _ h.symm (by decide)
    | vbool b =>
      exfalso
      cases b <;> simp only [serVal, quoteStr, List.cons_append, List.cons.injEq] at h <;>
        exact absurd h.1 (by decide)
    | vnull =>
      exfalso
      simp only [serVal, quoteStr, List.cons_append, List.cons.injEq] at h
      exact absurd h.1 (by decide)
  | vint n =>
    cases w with
    | vstr u =>
      exfalso
      simp only [serVal, quoteStr, List.cons_append] at h
      exact hIntHead n dquoteChar _ _ h (by decide)
    | vint m =>
      have hcd := append_cancel_disjoint isNumChar (intRepr n) (intRepr m) d1 d2 t1 t2
        (intRepr_chars n) (intRepr_chars m) (delim_not_num hd1) (delim_not_num hd2) h
      exact ⟨by rw [intRepr_inj _ _ hcd.1], hcd.2.1, hcd.2.2⟩
    | vbool b =>
      exfalso
      cases b <;> simp only [serVal, List.cons_append] at h
      · exact hIntHead n 'f' _ _ h (by decide)
      · exact hIntHead n 't' _ _ h (by decide)
    | vnull =>
      exfalso
      simp only [serVal, List.cons_append] at h
      exact hIntHead n 'n' _ _ h (by decide)
  | vbool b =>
    cases w with
    | vstr u =>
      exfalso
      cases b <;> simp only [serVal, quoteStr, List.cons_append, List.cons.injEq] at h <;>
        exact absurd h.1 (by decide)
    | vint m =>
      exfalso
      cases b <;> simp only [serVal, List.cons_append] at h
      · exact hIntHead m 'f' _ _ h.symm (by decide)
      · exact hIntHead m 't' _ _ h.symm (by decide)
    | vbool c =>
      cases b <;> cases c <;>
        simp only [serVal, List.cons_append, List.nil_append, List.cons.injEq,
          true_and] at h
      · exact ⟨rfl, h.1, h.2⟩
      · exact absurd h.1 (by decide)
      · exact absurd h.1 (by decide)
      · exact ⟨rfl, h.1, h.2⟩
    | vnull =>
      exfalso
      cases b <;>
        simp only [serVal, List.cons_append, List.nil_append, List.cons.injEq,
          true_and] at h <;>
        exact absurd h.1 (by decide)
  | vnull =>
    cases w with
    | vstr u =>
      exfalso
      simp only [serVal, quoteStr, List.cons_append, List.cons.injEq] at h
      exact absurd h.1 (by decide)
    | vint m =>
      exfalso
      simp only [serVal, List.cons_append] at h
      exact hIntHead m 'n' _ _ h.symm (by decide)
    | vbool c =>
      exfalso
      cases c <;>
        simp only [serVal, List.cons_append, List.nil_append, List.cons.injEq,
          true_and] at h <;>
        exact absurd h.1 (by decide)
    | vnull =>
      simp only [serVal, List.cons_append, List.nil_append, List.cons.injEq,
        true_and] at h
      exact ⟨rfl, h.1, h.2⟩

theorem serPair_cancel :
    ∀ (p q : String × Val) (d1 d2 : Char) (t1 t2 : List Char),
      (d1 = ',' ∨ d1 = rbraceChar) → (d2 = ',' ∨ d2 = rbraceChar) →
      serPair p ++ d1 :: t1 = serPair q ++ d2 :: t2 →
      p = q ∧ d1 = d2 ∧ t1 = t2 := by
  intro p q d1 d2 t1 t2 hd1 hd2 h
  obtain ⟨k1, v1⟩ := p
  obtain ⟨k2, v2⟩ := q
  simp only [serPair, quoteStr, List.cons_append, List.append_assoc, List.cons.injEq,
    List.singleton_append, List.nil_append, true_and] at h
  obtain ⟨hk, htail⟩ := escString_quote_inj _ _ _ _ h
  simp only [List.cons.injEq, true_and] at htail
  obtain ⟨hv, hd, ht⟩ := serVal_cancel v1 v2 d1 d2 t1 t2 hd1 hd2 htail
  have hks : k1 = k2 := by
    cases k1; cases k2
    exact congrArg String.mk hk
  exact ⟨by rw [hks, hv], hd, ht⟩

theorem serPairs_inj : ∀ (r1 r2 : List (String × Val)), serPairs r1 = serPairs r2 → r1 = r2 := by
  intro r1
  induction r1 with
  | nil =>
    intro r2 h
    cases r2 with
    | nil => rfl
    | cons q qs =>
      exfalso
      obtain ⟨k, v⟩ := q
      simp only [serPairs, serPair, quoteStr, List.cons_append, List.append_assoc,
        List.cons.injEq] at h
      exact absurd h.1 (by decide)
  | cons p ps ih =>
    intro r2 h
    cases r2 with
    | nil =>
      exfalso
      obtain ⟨k, v⟩ := p
      simp only [serPairs, serPair, quoteStr, List.cons_append, List.append_assoc,
        List.cons.injEq] at h
      exact absurd h.1 (by decide)
    | cons q qs =>
      simp only [serPairs] at h
      cases ps with
      | nil =>
        cases qs with
        | nil =>
          have hc := serPair_cancel p q rbraceChar rbraceChar [] []
            (Or.inr rfl) (Or.inr rfl) h
          rw [hc.1]
        | cons q2 qt =>
          exfalso
          have hc := serPair_cancel p q rbraceChar ',' [] (serPairs (q2 :: qt))
            (Or.inr rfl) (Or.inl rfl) h
          exact absurd hc.2.1 (by decide)
      | cons p2 pt =>
        cases qs with
        | nil =>
          exfalso
          have hc := serPair_cancel p q ',' rbraceChar (serPairs (p2 :: pt)) []
            (Or.inl rfl) (Or.inr rfl) h
          exact absurd hc.2.1 (by decide)
        | cons q2 qt =>
          have hc := serPair_cancel p q ',' ',' (serPairs (p2 :: pt)) (serPairs (q2 :: qt))
            (Or.inl rfl) (Or.inl rfl) h
          rw [hc.1, ih (q2 :: qt) hc.2.2]

theorem serializeRow_inj : ∀ r1 r2 : Row, serializeRow r1 = serializeRow r2 → r1 = r2 := by
  intro r1 r2 h
  unfold serializeRow at h
  simp only [List.cons.injEq, true_and] at h
  exact serPairs_inj r1 r2 h

theorem dedupRowsAux_eq_keepFirstsAux :
    ∀ (l : List Row) (seen : List Row),
      dedupRowsAux (seen.map serializeRow) l = keepFirstsAux seen l := by
  intro l
  induction l with
  | nil => intro seen; rfl
  | cons r rs ih =>
    intro seen
    simp only [dedupRowsAux, keepFirstsAux]
    have hmem : (serializeRow r ∈ seen.map serializeRow) ↔ r ∈ seen := by
      constructor
      · intro hm
        obtain ⟨x, hx, he⟩ := List.mem_map.mp hm
        exact (serializeRow_inj x r he) ▸ hx
      · intro hm
        exact List.mem_map.mpr ⟨r, hm, rfl⟩
    by_cases hr : r ∈ seen
    · rw [if_pos (hmem.mpr hr), if_pos hr]
      exact ih seen
    · rw [if_neg (fun hc => hr (hmem.mp hc)), if_neg hr]
      congr 1
      have hcons : serializeRow r :: seen.map serializeRow = (r :: seen).map serializeRow :=
        rfl
      rw [hcons]
      exact ih (r :: seen)

/-- C7: the DISTINCT post-processing deduplicates by the full serialized row,
and the serialization is injective, so two rows are duplicates exactly when
all their returned fields are equal; the filter keeps the first occurrence of
each duplicate group and preserves the order of the kept rows — it agrees
with the specification-side filter defined directly by row equality. -/
theorem distinct_dedup_spec :
    (∀ r1 r2 : Row, serializeRow r1 = serializeRow r2 ↔ r1 = r2) ∧
    (∀ rows : List Row, postDistinct true rows = keepFirsts rows) := by
  constructor
  · intro r1 r2
    constructor
    · exact serializeRow_inj r1 r2
    · intro h
      rw [h]
  · intro rows
    unfold postDistinct
    cases rows with
    | nil => rfl
    | cons r rs =>
      simp only [List.isEmpty_cons, Bool.not_false, Bool.true_and, if_true]
      unfold dedupRows keepFirsts
      exact dedupRowsAux_eq_keepFirstsAux (r :: rs) []

/-! ## Correctness of the in-memory GROUP BY category branch -/

theorem alookup_bumpCount_self :
    ∀ (acc : List (String × ℕ)) (c : String),
      alookup (bumpCount acc c) c = some ((alookup acc c).getD 0 + 1) := by
  intro acc c
  induction acc with
  | nil => simp [bumpCount, alookup]
  | cons p t ih =>
    obtain ⟨k, n⟩ := p
    by_cases hk : k = c
    · subst hk
      simp [bumpCount, alookup]
    · simp [bumpCount, alookup, hk, ih]

theorem alookup_bumpCount_ne :
    ∀ (acc : List (String × ℕ)) (c d : String), d ≠ c →
      alookup (bumpCount acc c) d = alookup acc d := by
  intro acc c d hdc
  induction acc with
  | nil => simp [bumpCount, alookup, Ne.symm hdc]
  | cons p t ih =>
    obtain ⟨k, n⟩ := p
    by_cases hk : k = c
    · subst hk
      simp [bumpCount, alookup, Ne.symm hdc]
    · by_cases hkd : k = d
      · subst hkd
        simp [bumpCount, alookup, hk]
      · simp [bumpCount, alookup, hk, hkd, ih]

theorem alookup_none_iff :
    ∀ (acc : List (String × ℕ)) (c : String),
      alookup acc c = none ↔ c ∉ acc.map Prod.fst := by
  intro acc c
  induction acc with
  | nil => simp [alookup]
  | cons p t ih =>
    obtain ⟨k, n⟩ := p
    by_cases hk : k = c
    · subst hk
      simp [alookup]
    · simp [alookup, hk, ih, Ne.symm hk]

theorem keys_bumpCount :
    ∀ (acc : List (String × ℕ)) (c : String),
      (bumpCount acc c).map Prod.fst =
        if (alookup acc c).isSome then acc.map Prod.fst else acc.map Prod.fst ++ [c] := by
  intro acc c
  induction acc with
  | nil => simp [bumpCount, alookup]
  | cons p t ih =>
    obtain ⟨k, n⟩ := p
    by_cases hk : k = c
    · subst hk
      simp [bumpCount, alookup]
    · simp only [bumpCount, if_neg hk, List.map_cons, alookup, ih]
      by_cases hs : (alookup t c).isSome
      · simp [hs, hk]
      · simp [hs, hk]

theorem nodup_keys_bumpCount :
    ∀ (acc : List (String × ℕ)) (c : String),
      (acc.map Prod.fst).Nodup → ((bumpCount acc c).map Prod.fst).Nodup := by
  intro acc c h
  rw [keys_bumpCount]
  by_cases hs : (alookup acc c).isSome
  · rw [if_pos hs]
    exact h
  · rw [if_neg hs]
    have hnone : alookup acc c = none := by
      cases hl : alookup acc c
      · rfl
      · rw [hl] at hs
        exact absurd rfl hs
    have hnotmem := (alookup_none_iff acc c).mp hnone
    simp [List.nodup_append, h, hnotmem]

theorem nodup_keys_foldl :
    ∀ (rows : List String) (acc : List (String × ℕ)),
      (acc.map Prod.fst).Nodup → ((rows.foldl bumpCount acc).map Prod.fst).Nodup := by
  intro rows
  induction rows with
  | nil => intro acc h; exact h
  | cons r rs ih =>
    intro acc h
    simp only [List.foldl_cons]
    exact ih (bumpCount acc r) (nodup_keys_bumpCount acc r h)

theorem alookup_foldl_bumpCount :
    ∀ (rows : List String) (acc : List (String × ℕ)) (c : String),
      alookup (rows.foldl bumpCount acc) c =
        match alookup acc c with
        | some n => some (n + rows.count c)
        | none => if c ∈ rows then some (rows.count c) else none := by
  intro rows
  induction rows with
  | nil =>
    intro acc c
    cases h : alookup acc c <;> simp [h]
  | cons r rs ih =>
    intro acc c
    simp only [List.foldl_cons]
    rw [ih (bumpCount acc r) c]
    by_cases hcr : c = r
    · subst hcr
      rw [alookup_bumpCount_self acc c]
      cases h : alookup acc c
      · simp only [h, Option.getD_none, Nat.zero_add]
        simp [List.count_cons]
        omega
      · simp only [h, Option.getD_some]
        simp [List.count_cons]
        omega
    · rw [alookup_bumpCount_ne acc r c hcr]
      cases h : alookup acc c
      · simp [List.count_cons, hcr, Ne.symm hcr]
      · simp [List.count_cons, Ne.symm hcr]

theorem mem_iff_alookup :
    ∀ (l : List (String × ℕ)) (c : String) (n : ℕ),
      (l.map Prod.fst).Nodup → ((c, n) ∈ l ↔ alookup l c = some n) := by
  intro l
  induction l with
  | nil => intro c n _; simp [alookup]
  | cons p t ih =>
    intro c n hnd
    obtain ⟨k, m⟩ := p
    simp only [List.map_cons, List.nodup_cons] at hnd
    by_cases hk : k = c
    · subst hk
      simp only [alookup, eq_self_iff_true, if_true, List.mem_cons, Option.some.injEq]
      constructor
      · intro h
        rcases h with h | h
        · simp only [Prod.mk.injEq] at h
          exact h.2.symm
        · exfalso
          exact hnd.1 (List.mem_map.mpr ⟨(k, n), h, rfl⟩)
      · intro h
        left
        rw [h]
    · simp only [alookup, if_neg hk, List.mem_cons]
      rw [← ih c n hnd.2]
      constructor
      · intro h
        rcases h with h | h
        · exfalso
          simp only [Prod.mk.injEq] at h
          exact hk h.1.symm
        · exact h
      · intro h
        right
        exact h

/-- C8 counterexample: in the backend dynamic path, applyGroupBy returns the
query unchanged, and a GROUP BY statement returns the fetched rows exactly as
the store produced them: with a store returning two identical category rows,
the result keeps the duplicate rows and contains no count field — it is not
the grouped, counted, count-sorted output the claim describes. -/
theorem backend_group_by_no_grouping :
    (∀ (q : SBQuery) (sql : List Char), applyGroupBy q sql = q) ∧
    parseAndExecuteSQL
        (fun _ => Except.ok ([[("category", Val.vstr "a")], [("category", Val.vstr "a")]], none))
        "SELECT category, COUNT(*) FROM items GROUP BY category" =
      Except.ok ([[("category", Val.vstr "a")], [("category", Val.vstr "a")]], 2) ∧
    [[("category", Val.vstr "a")], [("category", Val.vstr "a")]] ≠
      [[("category", Val.vstr "a"), ("count", Val.vint 2)]] :=
  ⟨fun _ _ => rfl, by decide, by decide⟩

/-- C8 amended: the in-memory grouping exists only in the src/src
executeQuery branch for GROUP BY category statements.  There, the fetched
category values are grouped in memory: the output is exactly one pair per
distinct category value carrying the number of its occurrences, each category
appears at most once, and the output is sorted by count descending (stable
sort, as ECMAScript requires).  The backend parseAndExecuteSQL path performs
no grouping: its applyGroupBy is a no-op and GROUP BY rows are returned as
fetched. -/
theorem srcGroupByCategory_grouping (rows : List String) :
    (∀ (c : String) (n : ℕ),
        ((c, n) ∈ srcGroupByCategory rows ↔ c ∈ rows ∧ n = rows.count c)) ∧
    ((srcGroupByCategory rows).map Prod.fst).Nodup ∧
    List.Pairwise cntGE (srcGroupByCategory rows) := by
  have hperm : (srcGroupByCategory rows).Perm (categoryCounts rows) :=
    List.perm_insertionSort cntGE _
  have hnodup : ((categoryCounts rows).map Prod.fst).Nodup := by
    unfold categoryCounts
    exact nodup_keys_foldl rows [] (by simp)
  refine ⟨?_, ?_, ?_⟩
  · intro c n
    rw [hperm.mem_iff, mem_iff_alookup _ c n hnodup]
    unfold categoryCounts
    rw [alookup_foldl_bumpCount rows [] c]
    simp only [alookup]
    by_cases hc : c ∈ rows
    · simp [hc, eq_comm]
    · simp [hc]
  · exact ((hperm.map Prod.fst).nodup_iff).mpr hnodup
  · exact List.sorted_insertionSort cntGE (categoryCounts rows)
